import Mathlib

set_option maxRecDepth 100000

/-!
Verification development for the structured-response parser of the
berrry-committer repository.

The repository contains several parser variants for the
`=== FILENAME: <name> ===` / `=== END: <name> ===` block format:

* `src/robust-file-parser.js` (`parseAndWriteFiles`): a regex/backreference
  parser (`/=== FILENAME: (.+?) ===\s*\n([\s\S]*?)\n=== END: \1 ===/g`)
  followed by a containment filter; embedded below as `robustParse`.
* `tests/test-robust-parser.js` (`parseFilesRobust`): a marker scanner
  (`/=== (FILENAME|END): (.+?) ===/g`) followed by a stack-based
  name-aware pairing with "outermost wins" filtering; embedded below as
  `parseFilesRobust` (scanner `scanMarkers`, resolver `resolveAux`).
* `src/file-processor.js` (`parseAndWriteFiles`): a line-based parser;
  its pure parsing part is embedded below as `fpParse`.
* `src/llm-client.js`: the content classifier predicates
  `isPlaceholderFile` / `isDangerousPath`, embedded with the same names.

Strings are modelled as `List Char`; positions count characters (the
sources only ever receive text where JS UTF-16 indices and character
indices agree, and every concrete input below is ASCII).  JS `trim()` and
the regex class `\s` are modelled for the ASCII whitespace characters.
-/

/-- JS whitespace (ASCII part): the characters matched by `\s` and removed
by `String.prototype.trim` that can occur in the repository's inputs. -/
def wsChar (c : Char) : Bool :=
  c = ' ' || c = '\t' || c = '\n' || c = '\r' || c = '\x0b' || c = '\x0c'

/-- JS `trim()` on a character list. -/
def jsTrimList (l : List Char) : List Char :=
  ((l.dropWhile wsChar).reverse.dropWhile wsChar).reverse

/-- JS `trim()` on a string. -/
def jsTrim (s : String) : String :=
  ⟨jsTrimList s.data⟩

/-- First index at which `pat` occurs in `l` (leftmost occurrence), as
found by a left-to-right scan. -/
def findSub (pat : List Char) : List Char → Option Nat
  | [] => if pat.isPrefixOf ([] : List Char) then some 0 else none
  | c :: t =>
    if pat.isPrefixOf (c :: t) then some 0
    else (findSub pat t).map (· + 1)

/-- Marker kind: a `=== FILENAME: ... ===` start tag or a `=== END: ... ===`
end tag. -/
inductive MKind where
  | start
  | stop
deriving DecidableEq, Repr

/-- A marker found by the scanner of `tests/test-robust-parser.js`:
`{ type, filename: match[2].trim(), position, endPosition }`. -/
structure Marker where
  kind : MKind
  name : String
  position : Nat
  endPosition : Nat
deriving DecidableEq, Repr

/-- The lazy `(.+?)` of the marker regexes: having already consumed at
least one character matched by the dot (`acc`), at each step first try to
close with the literal `" ==="`, otherwise consume one more character.
The JS dot refuses the line terminators `\n` and `\r`.  Returns the raw
(untrimmed) name and the rest after `" ==="`. -/
def lazyNameGo (acc : List Char) : List Char → Option (List Char × List Char)
  | [] => none
  | d :: rest' =>
    if (' ' :: '=' :: '=' :: '=' :: []).isPrefixOf (d :: rest') then
      some (acc, (d :: rest').drop 4)
    else if d = '\n' ∨ d = '\r' then none
    else lazyNameGo (acc ++ [d]) rest'

/-- Entry point of the lazy name match: `(.+?)` requires at least one
character (not a line terminator) before the closing `" ==="` may be
tried. -/
def lazyName : List Char → Option (List Char × List Char)
  | [] => none
  | c :: rest => if c = '\n' ∨ c = '\r' then none else lazyNameGo [c] rest

/-- The literal prefix `"=== FILENAME: "`. -/
def startTag : List Char := "=== FILENAME: ".data

/-- The literal prefix `"=== END: "`. -/
def stopTag : List Char := "=== END: ".data

/-- Try to match `/=== (FILENAME|END): (.+?) ===/` at the head of `l`.
Returns the kind, the raw captured name, and the rest of the input after
the match. -/
def tryMarker (l : List Char) : Option (MKind × List Char × List Char) :=
  if startTag.isPrefixOf l then
    (lazyName (l.drop 14)).map (fun p => (MKind.start, p.1, p.2))
  else if stopTag.isPrefixOf l then
    (lazyName (l.drop 9)).map (fun p => (MKind.stop, p.1, p.2))
  else
    none

/-- One global-regex scan step after another: at each position try the
marker regex; on a match, record it and resume after the match (the `g`
flag advances `lastIndex` to the end of the match), otherwise advance one
character.  `fuel` bounds the recursion and is instantiated with the
input length. -/
def scanAux : Nat → List Char → Nat → List Marker
  | 0, _, _ => []
  | _ + 1, [], _ => []
  | fuel + 1, l, pos =>
    match tryMarker l with
    | some (k, raw, rest) =>
      let len := l.length - rest.length
      { kind := k, name := jsTrim ⟨raw⟩, position := pos,
        endPosition := pos + len } :: scanAux fuel rest (pos + len)
    | none =>
      match l with
      | [] => []
      | _ :: t => scanAux fuel t (pos + 1)

/-- All markers of the input, in textual order, as collected by the first
loop of `parseFilesRobust` in `tests/test-robust-parser.js`. -/
def scanMarkers (s : String) : List Marker :=
  scanAux s.data.length s.data 0

/-- A candidate block of the stack resolver: `validRanges` entry
`{ filename, startPos, endPos, isNested }`. -/
structure RawRange where
  filename : String
  startPos : Nat
  endPos : Nat
  isNested : Bool
deriving DecidableEq, Repr

/-- Remove the topmost stack entry whose name matches `n` (the source's
downward `for` loop with `splice(i, 1)`); the head of the list is the top
of the stack.  Returns the removed marker and the remaining stack. -/
def popMatch (n : String) : List Marker → Option (Marker × List Marker)
  | [] => none
  | m :: st =>
    if m.name = n then some (m, st)
    else (popMatch n st).map (fun p => (p.1, m :: p.2))

/-- The stack walk of `parseFilesRobust`: a start marker is pushed; an
end marker pops the topmost start with the same name (if any) and emits a
candidate range whose `isNested` flag records whether the stack was still
non-empty after the pop; an end marker matching nothing is ignored. -/
def resolveAux : List Marker → List Marker → List RawRange
  | [], _ => []
  | m :: ms, st =>
    match m.kind with
    | MKind.start => resolveAux ms (m :: st)
    | MKind.stop =>
      match popMatch m.name st with
      | none => resolveAux ms st
      | some (s, st') =>
        { filename := m.name, startPos := s.endPosition,
          endPos := m.position, isNested := !st'.isEmpty }
          :: resolveAux ms st'

/-- "Outermost wins": keep only the non-nested candidate ranges. -/
def outerOnly (rs : List RawRange) : List RawRange :=
  rs.filter (fun r => !r.isNested)

/-- JS `substring(a, b)` on a character list (`a ≤ b` in all uses). -/
def sliceStr (cs : List Char) (a b : Nat) : List Char :=
  (cs.drop a).take (b - a)

/-- The source's `content.replace(/^\n/, '')`: drop a single leading
newline if present. -/
def dropLeadNL : List Char → List Char
  | '\n' :: t => t
  | l => l

/-- The stack-based parser `parseFilesRobust` of
`tests/test-robust-parser.js`: scan the markers, pair them with the stack
walk, keep outermost ranges, extract and trim each range's substring, and
keep only blocks whose cleaned content is non-empty (JS truthiness of the
content string). -/
def parseFilesRobust (s : String) : List (String × String) :=
  let rs := outerOnly (resolveAux (scanMarkers s) [])
  rs.filterMap (fun r =>
    let content := dropLeadNL (jsTrimList (sliceStr s.data r.startPos r.endPos))
    if content = [] then none else some (r.filename, (⟨content⟩ : String)))

/-- The closing pattern `\n=== END: \1 ===` of the backreference regex in
`src/robust-file-parser.js`, for a given raw (untrimmed) captured name. -/
def endPatOf (raw : List Char) : List Char :=
  '\n' :: ("=== END: ".data ++ raw ++ " ===".data)

/-- Length of the maximal leading whitespace run (what a greedy `\s*` can
consume). -/
def wsRunLen (l : List Char) : Nat := (l.takeWhile wsChar).length

/-- All candidate splits for the lazy `(.+?)` capture followed by the
literal `" ==="`, in the order regex backtracking tries them (shortest
name first).  `acc` holds the (non-empty) name consumed so far; the dot
refuses the line terminators `\n` and `\r`. -/
def nameCandsGo (acc : List Char) : List Char → List (List Char × List Char)
  | [] => []
  | d :: rest' =>
    (if (' ' :: '=' :: '=' :: '=' :: []).isPrefixOf (d :: rest') then
      [(acc, (d :: rest').drop 4)]
    else []) ++
    (if d = '\n' ∨ d = '\r' then [] else nameCandsGo (acc ++ [d]) rest')

/-- Entry point for the candidate enumeration: the first name character
must exist and not be a line terminator. -/
def nameCands : List Char → List (List Char × List Char)
  | [] => []
  | c :: rest => if c = '\n' ∨ c = '\r' then [] else nameCandsGo [c] rest

/-- After `=== FILENAME: <raw> ===` has been matched, match
`\s*\n([\s\S]*?)\n=== END: <raw> ===` against `rest0`: the greedy `\s*`
tries the longest whitespace run first and backtracks (`k` descending)
until the next character is a newline, then the lazy content stops at the
first occurrence of the closing pattern.  Returns the raw content and the
rest of the input after the whole match. -/
def afterName (raw rest0 : List Char) : Option (List Char × List Char) :=
  let pat := endPatOf raw
  ((List.range (wsRunLen rest0 + 1)).reverse).findSome? (fun k =>
    match rest0.get? k with
    | some ch =>
      if ch = '\n' then
        let cr := rest0.drop (k + 1)
        (findSub pat cr).map (fun idx =>
          (cr.take idx, cr.drop (idx + pat.length)))
      else none
    | none => none)

/-- Try to match the whole backreference regex
`/=== FILENAME: (.+?) ===\s*\n([\s\S]*?)\n=== END: \1 ===/` at the head
of `l`, with the engine's backtracking order (name candidates shortest
first, each tried with the full remainder of the pattern). -/
def rTryMatch (l : List Char) : Option (List Char × List Char × List Char) :=
  if startTag.isPrefixOf l then
    (nameCands (l.drop 14)).findSome? (fun p =>
      (afterName p.1 p.2).map (fun q => (p.1, q.1, q.2)))
  else none

/-- A `foundRanges` entry of `src/robust-file-parser.js`:
`{ filename: match[1].trim(), content: match[2].trim(), start, end }`. -/
structure RRange where
  filename : String
  content : String
  rstart : Nat
  rend : Nat
deriving DecidableEq, Repr

/-- The global `exec` loop of `src/robust-file-parser.js`: at each
position try the backreference regex, on a match record the range and
resume after it, otherwise advance one character.  `fuel` is
instantiated with the input length. -/
def robustScanAux : Nat → List Char → Nat → List RRange
  | 0, _, _ => []
  | _ + 1, [], _ => []
  | fuel + 1, l, pos =>
    match rTryMatch l with
    | some (raw, content, rest) =>
      let len := l.length - rest.length
      { filename := jsTrim ⟨raw⟩, content := jsTrim ⟨content⟩,
        rstart := pos, rend := pos + len } :: robustScanAux fuel rest (pos + len)
    | none =>
      match l with
      | [] => []
      | _ :: t => robustScanAux fuel t (pos + 1)

/-- The `foundRanges` list of `src/robust-file-parser.js`. -/
def robustRanges (s : String) : List RRange :=
  robustScanAux s.data.length s.data 0

/-- The second pass of `src/robust-file-parser.js`: remove ranges strictly
contained within another range. -/
def robustOuter (rs : List RRange) : List RRange :=
  rs.filter (fun r =>
    !(rs.any (fun o => o != r && decide (o.rstart < r.rstart) && decide (o.rend > r.rend))))

/-- The pure result of `parseAndWriteFiles` in `src/robust-file-parser.js`:
the retained ranges as an ordered list of `(filename, content)` pairs
(the source stores the same data as the `files` array plus the
`parsedFiles` object keyed by filename). -/
def robustParse (s : String) : List (String × String) :=
  (robustOuter (robustRanges s)).map (fun r => (r.filename, r.content))

/-- JS `String.prototype.replace` with a plain-string pattern: replace the
first occurrence only. -/
def replaceFirst (pat rep s : String) : String :=
  match findSub pat.data s.data with
  | none => s
  | some i => ⟨s.data.take i ++ rep.data ++ s.data.drop (i + pat.data.length)⟩

/-- `lines.join('\n')`. -/
def joinNL (ls : List String) : String := String.intercalate "\n" ls

/-- The loop state of `parseAndWriteFiles` in `src/file-processor.js`. -/
structure FPState where
  files : List (String × String)
  currentFile : Option String
  content : List String
  inFile : Bool
deriving DecidableEq, Repr

/-- Initial state: `files = []`, `currentFile = null`, `currentContent = []`,
`inFile = false`. -/
def fpInit : FPState := ⟨[], none, [], false⟩

/-- JS truthiness of the `currentFile` variable (`null` and the empty
string are falsy). -/
def fpTruthy : Option String → Bool
  | none => false
  | some f => f != ""

/-- One iteration of the `for (const line of lines)` loop of
`src/file-processor.js`. -/
def fpStep (st : FPState) (line : String) : FPState :=
  if startTag.isPrefixOf line.data then
    { files :=
        if fpTruthy st.currentFile && st.inFile then
          st.files ++ [(st.currentFile.getD "", joinNL st.content)]
        else st.files,
      currentFile := some (jsTrim (replaceFirst ⟨startTag⟩ "" line)),
      content := [], inFile := true }
  else if stopTag.isPrefixOf line.data then
    { files :=
        if fpTruthy st.currentFile && st.inFile then
          st.files ++ [(st.currentFile.getD "", joinNL st.content)]
        else st.files,
      currentFile := none, content := [], inFile := false }
  else if st.inFile then
    { st with content := st.content ++ [line] }
  else st

/-- The final fall-through of `src/file-processor.js` ("Handle case where
file doesn't have explicit END marker"): an open block with non-empty
accumulated content is emitted even without an end marker. -/
def fpFinish (st : FPState) : List (String × String) :=
  if fpTruthy st.currentFile && st.inFile && decide (st.content.length > 0) then
    st.files ++ [(st.currentFile.getD "", joinNL st.content)]
  else st.files

/-- The pure parsing part of `parseAndWriteFiles` in
`src/file-processor.js`, over an explicit list of lines. -/
def fpParseLines (ls : List String) : List (String × String) :=
  fpFinish (ls.foldl fpStep fpInit)

/-- JS `String.prototype.split('\n')` on a character list: `""` splits to
`[""]`, and every newline separates two (possibly empty) fields. -/
def splitNL : List Char → List (List Char)
  | [] => [[]]
  | '\n' :: t => [] :: splitNL t
  | c :: t =>
    match splitNL t with
    | h :: rest => (c :: h) :: rest
    | [] => [[c]]

/-- The pure parsing part of `parseAndWriteFiles` in
`src/file-processor.js` (`response.split('\n')` then the line loop):
the `files` array before any I/O happens. -/
def fpParse (s : String) : List (String × String) :=
  fpParseLines ((splitNL s.data).map (fun l => (⟨l⟩ : String)))

/-- `(findSub pat l).isSome`: does `pat` occur in `l`? -/
def containsSeq (pat l : List Char) : Bool := (findSub pat l).isSome

/-- JS `/^o.*c$/` (no flags): the whole string is wrapped in the delimiter
pair, and the dot cannot cross a line terminator (`\n` or `\r`). -/
def wrappedIn (o c : Char) (l : List Char) : Bool :=
  match l with
  | [] => false
  | x :: rest =>
    x = o && rest.getLast? = some c
      && !(rest.dropLast.any (fun ch => ch = '\n' || ch = '\r'))

/-- Scan for an occurrence of `b` reachable without crossing a line
terminator (the gap is matched by `.*`). -/
def gapScan (b : List Char) : List Char → Bool
  | [] => false
  | c :: t =>
    if b.isPrefixOf (c :: t) then true
    else if c = '\n' || c = '\r' then false
    else gapScan b t

/-- JS `/example.*content/i` on a lowercased string: an occurrence of
`example` followed on the same line by an occurrence of `content`. -/
def exCheck : List Char → Bool
  | [] => false
  | c :: t =>
    (if "example".data.isPrefixOf (c :: t) then gapScan "content".data ((c :: t).drop 7)
     else false)
    || exCheck t

/-- `isPlaceholderFile` of `src/llm-client.js`: generic placeholder path
patterns on the filename, placeholder patterns on the trimmed content
(`/^\[.*\]$/`, `/^<.*>$/`, `/^TODO:/i`, `/^FIXME:/i`, `/placeholder/i`,
`/example.*content/i`), and the minimum content length threshold. -/
def isPlaceholderFile (filename content : String) : Bool :=
  let f := filename.data
  let ct := jsTrimList content.data
  let ctl := ct.map Char.toLower
  (containsSeq "path/to/".data f || containsSeq "example/".data f
    || containsSeq "sample/".data f || containsSeq "template/".data f
    || ".ext".data.isSuffixOf f
    || "file.txt".data.isSuffixOf f || "file.ext".data.isSuffixOf f
    || "file.tmp".data.isSuffixOf f)
  || (wrappedIn '[' ']' ct || wrappedIn '<' '>' ct
    || (ctl.take 5) = "todo:".data || (ctl.take 6) = "fixme:".data
    || containsSeq "placeholder".data ctl
    || exCheck ctl)
  || decide (ct.length < 10)

/-- `isDangerousPath` of `src/llm-client.js`: path traversal (`..`), null
bytes, reserved system-path prefixes, and the 255-character length cap. -/
def isDangerousPath (filename : String) : Bool :=
  let f := filename.data
  containsSeq "..".data f
  || f.contains '\x00'
  || "/etc/".data.isPrefixOf f || "/proc/".data.isPrefixOf f
  || "/sys/".data.isPrefixOf f || "/dev/".data.isPrefixOf f
  || "/root/".data.isPrefixOf f || "/boot/".data.isPrefixOf f
  || decide (f.length > 255)

/-- A successful lazy-name match consumes at least the closing `" ==="`. -/
theorem lazyNameGo_len : ∀ (rest acc raw r : List Char),
    lazyNameGo acc rest = some (raw, r) → r.length < rest.length := by
  intro rest
  induction rest with
  | nil => intro acc raw r h; simp [lazyNameGo] at h
  | cons d rest' ih =>
    intro acc raw r h
    simp only [lazyNameGo] at h
    split at h
    · simp only [Option.some.injEq, Prod.mk.injEq] at h
      obtain ⟨-, h2⟩ := h
      subst h2
      simp only [List.drop_succ_cons, List.length_cons, List.length_drop]
      omega
    · split at h
      · exact absurd h (by simp)
      · have := ih _ _ _ h
        simp only [List.length_cons]
        omega

/-- A successful lazy-name match consumes at least one character. -/
theorem lazyName_len : ∀ (l raw r : List Char),
    lazyName l = some (raw, r) → r.length < l.length := by
  intro l raw r h
  cases l with
  | nil => simp [lazyName] at h
  | cons c rest =>
    simp only [lazyName] at h
    split at h
    · exact absurd h (by simp)
    · have := lazyNameGo_len _ _ _ _ h
      simp only [List.length_cons]
      omega

/-- A marker match strictly shortens the input. -/
theorem tryMarker_len {l : List Char} {k : MKind} {raw rest : List Char} :
    tryMarker l = some (k, raw, rest) → rest.length < l.length := by
  intro h
  simp only [tryMarker] at h
  split at h
  · cases hl : lazyName (l.drop 14) with
    | none => rw [hl] at h; simp at h
    | some p =>
      rw [hl] at h
      simp only [Option.map_some', Option.some.injEq] at h
      have := lazyName_len _ _ _ hl
      have h2 : p.2 = rest := by
        cases p; simp only [Prod.mk.injEq] at h; exact h.2.2
      rw [h2] at this
      have : rest.length < (l.drop 14).length := this
      simp only [List.length_drop] at this
      omega
  · split at h
    · cases hl : lazyName (l.drop 9) with
      | none => rw [hl] at h; simp at h
      | some p =>
        rw [hl] at h
        simp only [Option.map_some', Option.some.injEq] at h
        have := lazyName_len _ _ _ hl
        have h2 : p.2 = rest := by
          cases p; simp only [Prod.mk.injEq] at h; exact h.2.2
        rw [h2] at this
        have : rest.length < (l.drop 9).length := this
        simp only [List.length_drop] at this
        omega
    · exact absurd h (by simp)

/-- Scanner soundness: all markers found from position `pos` lie at or
after `pos`, each has positive width, and the matches are ordered and
non-overlapping. -/
theorem scanAux_bounds : ∀ (fuel : Nat) (l : List Char) (pos : Nat),
    (∀ m ∈ scanAux fuel l pos, pos ≤ m.position ∧ m.position < m.endPosition)
    ∧ (scanAux fuel l pos).Pairwise (fun a b => a.endPosition ≤ b.position) := by
  intro fuel
  induction fuel with
  | zero => intro l pos; simp [scanAux]
  | succ f ih =>
    intro l pos
    cases l with
    | nil => simp [scanAux]
    | cons c t =>
      cases htm : tryMarker (c :: t) with
      | none =>
        have heq : scanAux (f + 1) (c :: t) pos = scanAux f t (pos + 1) := by
          simp [scanAux, htm]
        rw [heq]
        refine ⟨fun m hm => ?_, (ih t (pos + 1)).2⟩
        have := (ih t (pos + 1)).1 m hm
        omega
      | some trip =>
        obtain ⟨k, raw, rest⟩ := trip
        have hlt := tryMarker_len htm
        have heq : scanAux (f + 1) (c :: t) pos =
            { kind := k, name := jsTrim ⟨raw⟩, position := pos,
              endPosition := pos + ((c :: t).length - rest.length) }
              :: scanAux f rest (pos + ((c :: t).length - rest.length)) := by
          simp [scanAux, htm]
        rw [heq]
        constructor
        · intro m hm
          rcases List.mem_cons.mp hm with h | h
          · subst h
            constructor
            · exact Nat.le_refl _
            · simp only
              omega
          · have := (ih rest (pos + ((c :: t).length - rest.length))).1 m h
            omega
        · rw [List.pairwise_cons]
          refine ⟨fun b hb => ?_, (ih rest _).2⟩
          have := (ih rest (pos + ((c :: t).length - rest.length))).1 b hb
          simp only
          omega

/-- The scanner output is an ordered non-overlapping marker sequence. -/
def MChain (ms : List Marker) : Prop :=
  ms.Pairwise (fun a b => a.endPosition ≤ b.position)
  ∧ ∀ m ∈ ms, m.position < m.endPosition

theorem scanMarkers_chain (s : String) : MChain (scanMarkers s) :=
  ⟨(scanAux_bounds _ _ _).2, fun m hm => ((scanAux_bounds _ _ _).1 m hm).2⟩

/-- `popMatch` removes a member of the stack; the remaining stack is made
of members of the original one. -/
theorem popMatch_mem : ∀ (st : List Marker) (n : String) (s : Marker) (st' : List Marker),
    popMatch n st = some (s, st') → s ∈ st ∧ ∀ x ∈ st', x ∈ st := by
  intro st
  induction st with
  | nil => intro n s st' h; simp [popMatch] at h
  | cons m st ih =>
    intro n s st' h
    simp only [popMatch] at h
    split at h
    · simp only [Option.some.injEq, Prod.mk.injEq] at h
      obtain ⟨h1, h2⟩ := h
      subst h1; subst h2
      exact ⟨List.mem_cons_self _ _, fun x hx => List.mem_cons_of_mem _ hx⟩
    · cases hp : popMatch n st with
      | none => rw [hp] at h; simp at h
      | some p =>
        rw [hp] at h
        simp only [Option.map_some', Option.some.injEq] at h
        obtain ⟨hm, hst⟩ := ih n p.1 p.2 (by rw [hp])
        cases p with
        | mk p1 p2 =>
          simp only [Prod.mk.injEq] at h
          obtain ⟨h1, h2⟩ := h
          subst h1; subst h2
          refine ⟨List.mem_cons_of_mem _ hm, fun x hx => ?_⟩
          rcases List.mem_cons.mp hx with h | h
          · subst h; exact List.mem_cons_self _ _
          · exact List.mem_cons_of_mem _ (hst x h)

/-- A name matching nothing on the stack pops nothing. -/
theorem popMatch_none : ∀ (st : List Marker) (n : String),
    (∀ m ∈ st, m.name ≠ n) → popMatch n st = none := by
  intro st
  induction st with
  | nil => intro n _; rfl
  | cons m st ih =>
    intro n h
    simp only [popMatch]
    rw [if_neg (h m (List.mem_cons_self _ _))]
    rw [ih n (fun x hx => h x (List.mem_cons_of_mem _ hx))]
    rfl

/-- Every emitted range ends at some end marker of the input, and carries
that end marker's name. -/
theorem resolve_endpos : ∀ (ms st : List Marker) (r : RawRange), r ∈ resolveAux ms st →
    ∃ e, e ∈ ms ∧ e.kind = MKind.stop ∧ r.filename = e.name ∧ r.endPos = e.position := by
  intro ms
  induction ms with
  | nil => intro st r h; simp [resolveAux] at h
  | cons m ms ih =>
    intro st r h
    cases hk : m.kind with
    | start =>
      rw [resolveAux, hk] at h
      obtain ⟨e, he, h1, h2, h3⟩ := ih _ r h
      exact ⟨e, List.mem_cons_of_mem _ he, h1, h2, h3⟩
    | stop =>
      rw [resolveAux, hk] at h
      cases hp : popMatch m.name st with
      | none =>
        rw [hp] at h
        obtain ⟨e, he, h1, h2, h3⟩ := ih _ r h
        exact ⟨e, List.mem_cons_of_mem _ he, h1, h2, h3⟩
      | some p =>
        rw [hp] at h
        rcases List.mem_cons.mp h with h | h
        · subst h
          exact ⟨m, List.mem_cons_self _ _, hk, rfl, rfl⟩
        · obtain ⟨e, he, h1, h2, h3⟩ := ih _ r h
          exact ⟨e, List.mem_cons_of_mem _ he, h1, h2, h3⟩

/-- Every emitted range starts at the end-offset of a start marker that
was either already on the stack or occurs in the remaining input. -/
theorem resolve_startpos : ∀ (ms st : List Marker) (r : RawRange), r ∈ resolveAux ms st →
    (∃ m, m ∈ st ∧ r.startPos = m.endPosition)
    ∨ (∃ mk, mk ∈ ms ∧ mk.kind = MKind.start ∧ r.startPos = mk.endPosition) := by
  intro ms
  induction ms with
  | nil => intro st r h; simp [resolveAux] at h
  | cons m ms ih =>
    intro st r h
    cases hk : m.kind with
    | start =>
      rw [resolveAux, hk] at h
      rcases ih _ r h with ⟨x, hx, hs⟩ | ⟨mk, hmk, h1, h2⟩
      · rcases List.mem_cons.mp hx with h' | h'
        · subst h'
          exact Or.inr ⟨x, List.mem_cons_self _ _, hk, hs⟩
        · exact Or.inl ⟨x, h', hs⟩
      · exact Or.inr ⟨mk, List.mem_cons_of_mem _ hmk, h1, h2⟩
    | stop =>
      rw [resolveAux, hk] at h
      cases hp : popMatch m.name st with
      | none =>
        rw [hp] at h
        rcases ih _ r h with ⟨x, hx, hs⟩ | ⟨mk, hmk, h1, h2⟩
        · exact Or.inl ⟨x, hx, hs⟩
        · exact Or.inr ⟨mk, List.mem_cons_of_mem _ hmk, h1, h2⟩
      | some p =>
        rw [hp] at h
        rcases List.mem_cons.mp h with h' | h'
        · subst h'
          exact Or.inl ⟨p.1, (popMatch_mem _ _ _ _ hp).1, rfl⟩
        · rcases ih _ r h' with ⟨x, hx, hs⟩ | ⟨mk, hmk, h1, h2⟩
          · exact Or.inl ⟨x, (popMatch_mem _ _ _ _ hp).2 x hx, hs⟩
          · exact Or.inr ⟨mk, List.mem_cons_of_mem _ hmk, h1, h2⟩

/-- The stack sits textually before the remaining markers. -/
def StackBelow (st ms : List Marker) : Prop :=
  ∀ a ∈ st, ∀ b ∈ ms, a.endPosition ≤ b.position

/-- Core "outermost wins" invariant: when one candidate range's span
strictly contains another's, the inner candidate was matched while the
outer block's start marker was still open, so it carries
`isNested = true`. -/
theorem resolve_contained_nested : ∀ (ms st : List Marker), MChain ms → StackBelow st ms →
    ∀ r r', r ∈ resolveAux ms st → r' ∈ resolveAux ms st →
    r'.startPos < r.startPos → r.endPos < r'.endPos → r.isNested = true := by
  intro ms
  induction ms with
  | nil => intro st _ _ r r' hr; simp [resolveAux] at hr
  | cons m ms ih =>
    intro st hchain hbelow r r' hr hr' hss hee
    obtain ⟨hpw, hpe⟩ := hchain
    rw [List.pairwise_cons] at hpw
    obtain ⟨hmhead, hpwtail⟩ := hpw
    have hchain' : MChain ms := ⟨hpwtail, fun x hx => hpe x (List.mem_cons_of_mem _ hx)⟩
    have hbelow' : StackBelow st ms :=
      fun a ha b hb => hbelow a ha b (List.mem_cons_of_mem _ hb)
    cases hk : m.kind with
    | start =>
      rw [resolveAux, hk] at hr hr'
      have hbelow'' : StackBelow (m :: st) ms := by
        intro a ha b hb
        rcases List.mem_cons.mp ha with h | h
        · subst h; exact hmhead b hb
        · exact hbelow' a h b hb
      exact ih (m :: st) hchain' hbelow'' r r' hr hr' hss hee
    | stop =>
      rw [resolveAux, hk] at hr hr'
      cases hp : popMatch m.name st with
      | none =>
        rw [hp] at hr hr'
        exact ih st hchain' hbelow' r r' hr hr' hss hee
      | some p =>
        rw [hp] at hr hr'
        obtain ⟨s0, st'⟩ := p
        have hs0 : s0 ∈ st := (popMatch_mem _ _ _ _ hp).1
        have hst' : ∀ x ∈ st', x ∈ st := (popMatch_mem _ _ _ _ hp).2
        have hbelowst' : StackBelow st' ms :=
          fun a ha b hb => hbelow' a (hst' a ha) b hb
        rcases List.mem_cons.mp hr with hre | hrt
        · -- r is the range emitted at this end marker
          rcases List.mem_cons.mp hr' with hre' | hrt'
          · -- r' is the same emitted range: its span cannot strictly
            -- contain itself
            rw [hre, hre'] at hss
            exact absurd hss (Nat.lt_irrefl _)
          · -- r' comes from the rest of the run: its start offset stems
            -- from a marker on the remaining stack or from a later start
            -- marker; the latter is impossible because r' starts before r
            rcases resolve_startpos ms st' r' hrt' with ⟨x, hx, hxs⟩ | ⟨mk, hmk, -, hmks⟩
            · -- a marker is still on the stack after the pop, so the
              -- emitted range is nested
              rw [hre]
              simp only
              cases st' with
              | nil => exact absurd hx (List.not_mem_nil _)
              | cons _ _ => simp [List.isEmpty]
            · -- r'.startPos comes from a later start marker: contradiction
              have h1 : s0.endPosition ≤ m.position :=
                hbelow s0 hs0 m (List.mem_cons_self _ _)
              have h2 : m.endPosition ≤ mk.position := hmhead mk hmk
              have h3 : mk.position < mk.endPosition :=
                hpe mk (List.mem_cons_of_mem _ hmk)
              have h4 : m.position < m.endPosition := hpe m (List.mem_cons_self _ _)
              rw [hre] at hss
              simp only at hss
              omega
        · rcases List.mem_cons.mp hr' with hre' | hrt'
          · -- r' is the range emitted now, but r ends at a later end
            -- marker: contradiction with r ending before r'
            obtain ⟨e, he, -, -, hep⟩ := resolve_endpos ms st' r hrt
            have h1 : m.endPosition ≤ e.position := hmhead e he
            have h2 : m.position < m.endPosition := hpe m (List.mem_cons_self _ _)
            rw [hre'] at hee
            simp only at hee
            omega
          · exact ih st' hchain' hbelowst' r r' hrt hrt' hss hee

/-- The deeply nested three-level input of `tests/test-robust-parser.js`. -/
def dnInput : String := "=== FILENAME: level1.js ===\nouter content\n=== FILENAME: level2.js ===\nmiddle content\n=== FILENAME: level3.js ===\ninner content\n=== END: level3.js ===\nmore middle\n=== END: level2.js ===\nmore outer\n=== END: level1.js ==="

/-- Scenario A of the specification: two disjoint well-formed blocks. -/
def scAInput : String := "=== FILENAME: README.md ===\n# Test\n=== END: README.md ===\n\n=== FILENAME: src/x.tsx ===\nimport X\n=== END: src/x.tsx ==="

/-- Scenario E of the specification: a start marker with no end marker. -/
def noEndInput : String := "=== FILENAME: incomplete.js ===\nconsole.log(1)"

/-- Scenario with mismatched start/end names. -/
def mismatchInput : String := "=== FILENAME: X ===\nsome content here\n=== END: Y ==="

/-- C1, counterexample to the claim as stated: in the deeply nested input
the matched candidate pair for `level2.js` fully contains the well-formed
matched pair for `level3.js`, yet the output does not contain
`level2.js`'s block (`level2.js` is itself contained in `level1.js`'s
block), refuting "the output contains A's block". -/
theorem claim1_counterexample :
    ((resolveAux (scanMarkers dnInput) []).any fun a =>
      (resolveAux (scanMarkers dnInput) []).any fun b =>
        a.filename == "level2.js" && b.filename == "level3.js"
          && decide (a.startPos < b.startPos) && decide (b.endPos < a.endPos)) = true
    ∧ ((parseFilesRobust dnInput).map Prod.fst).contains "level2.js" = false
    ∧ ((parseFilesRobust dnInput).map Prod.fst).contains "level1.js" = true := by
  decide

/-- C1 (amended): for every input text, a matched candidate block becomes
a Resolved File only if its nesting depth is 0; whenever a matched pair
A's span strictly contains a matched pair B's span, B is flagged nested
and is absent from the outermost-wins output, while A's block is in that
output exactly when A itself is not nested. -/
theorem claim1_outermost_wins : ∀ (s : String) (r r' : RawRange),
    r ∈ resolveAux (scanMarkers s) [] → r' ∈ resolveAux (scanMarkers s) [] →
    r'.startPos < r.startPos → r.endPos < r'.endPos →
    r.isNested = true ∧ r ∉ outerOnly (resolveAux (scanMarkers s) [])
    ∧ (r'.isNested = false → r' ∈ outerOnly (resolveAux (scanMarkers s) [])) := by
  intro s r r' hr hr' hss hee
  have hchain := scanMarkers_chain s
  have hnest := resolve_contained_nested (scanMarkers s) [] hchain
    (fun a ha => absurd ha (List.not_mem_nil _)) r r' hr hr' hss hee
  refine ⟨hnest, ?_, ?_⟩
  · intro hmem
    rw [outerOnly, List.mem_filter, hnest] at hmem
    simp at hmem
  · intro h'
    rw [outerOnly, List.mem_filter]
    exact ⟨hr', by rw [h']; rfl⟩

/-- Witness for C1 at the deeply nested input: the `level3.js` candidate
(contained in the `level2.js` candidate) is nested and filtered out. -/
theorem claim1_witness :
    (⟨"level3.js", 112, 127, true⟩ : RawRange).isNested = true
    ∧ (⟨"level3.js", 112, 127, true⟩ : RawRange) ∉ outerOnly (resolveAux (scanMarkers dnInput) [])
    ∧ ((⟨"level2.js", 69, 162, true⟩ : RawRange).isNested = false →
        (⟨"level2.js", 69, 162, true⟩ : RawRange) ∈ outerOnly (resolveAux (scanMarkers dnInput) [])) :=
  claim1_outermost_wins dnInput ⟨"level3.js", 112, 127, true⟩ ⟨"level2.js", 69, 162, true⟩
    (by decide) (by decide) (by decide) (by decide)

/-- C2: a start marker with no matching end marker produces no Resolved
File — if no end marker of the input carries name `n`, then no output
pair of the strict parser is named `n`; in particular one start marker
followed by content and no end marker at all yields zero Resolved Files
(in both strict parser variants). -/
theorem claim2_unmatched_start :
    (∀ (s n : String),
      (∀ e ∈ scanMarkers s, e.kind = MKind.stop → e.name ≠ n) →
      ∀ p ∈ parseFilesRobust s, p.1 ≠ n)
    ∧ parseFilesRobust noEndInput = []
    ∧ robustParse noEndInput = [] := by
  refine ⟨?_, by decide, by decide⟩
  intro s n hn p hp
  rw [parseFilesRobust] at hp
  simp only [List.mem_filterMap] at hp
  obtain ⟨r, hr, hpr⟩ := hp
  rw [outerOnly, List.mem_filter] at hr
  obtain ⟨e, he, hek, hname, -⟩ := resolve_endpos _ _ r hr.1
  have hp1 : p.1 = r.filename := by
    by_cases hc : dropLeadNL (jsTrimList (sliceStr s.data r.startPos r.endPos)) = []
    · rw [if_pos hc] at hpr; exact absurd hpr (by simp)
    · rw [if_neg hc] at hpr
      simp only [Option.some.injEq] at hpr
      rw [← hpr]
  rw [hp1, hname]
  exact hn e he hek

/-- Witness for C2: a block named `a.js` can never be named `ghost.js`. -/
theorem claim2_witness : (("a.js", "0123456789ab") : String × String).1 ≠ "ghost.js" :=
  claim2_unmatched_start.1 "=== FILENAME: a.js ===\n0123456789ab\n=== END: a.js ==="
    "ghost.js" (by decide) ("a.js", "0123456789ab") (by decide)

/-- C3: an orphaned end marker is inert — an end marker whose name
matches no still-open start marker changes neither the stack nor the
emitted ranges of the rest of the run; in particular a start named X
followed by content and an end named Y produces no Resolved File (in
both strict parser variants). -/
theorem claim3_orphaned_end :
    (∀ (ms st : List Marker) (e : Marker),
      e.kind = MKind.stop → (∀ m ∈ st, m.name ≠ e.name) →
      resolveAux (e :: ms) st = resolveAux ms st)
    ∧ parseFilesRobust mismatchInput = []
    ∧ robustParse mismatchInput = [] := by
  refine ⟨?_, by decide, by decide⟩
  intro ms st e hk hn
  rw [resolveAux, hk, popMatch_none st e.name hn]

/-- Witness for C3: an orphaned `END: Y` leaves a stack holding an open
`X` untouched. -/
theorem claim3_witness :
    resolveAux [⟨MKind.stop, "Y", 20, 35⟩] [⟨MKind.start, "X", 0, 19⟩]
      = resolveAux [] [⟨MKind.start, "X", 0, 19⟩] :=
  claim3_orphaned_end.1 [] [⟨MKind.start, "X", 0, 19⟩] ⟨MKind.stop, "Y", 20, 35⟩
    rfl (by decide)

/-- The marker sequence of a list of disjoint well-formed blocks: each
block contributes its start marker immediately followed by its matching
end marker. -/
def blockFlat (bs : List (Marker × Marker)) : List Marker :=
  (bs.map (fun p => [p.1, p.2])).flatten

/-- The candidate range a disjoint well-formed block resolves to. -/
def blockRange (p : Marker × Marker) : RawRange :=
  ⟨p.2.name, p.1.endPosition, p.2.position, false⟩

/-- The end markers of a block list form a sublist of its flattened
marker sequence. -/
theorem map_snd_sublist : ∀ bs : List (Marker × Marker),
    List.Sublist (bs.map Prod.snd) (blockFlat bs) := by
  intro bs
  induction bs with
  | nil => simp [blockFlat]
  | cons q qs ihq =>
    have h : blockFlat (q :: qs) = q.1 :: q.2 :: blockFlat qs := by
      simp [blockFlat]
    rw [h, List.map_cons]
    exact List.Sublist.cons _ (List.Sublist.cons₂ _ ihq)

/-- C6: the parse is total (it is a Lean function) and an input in which
the scanner finds no markers yields the empty list, not an error; the
concrete marker-free input yields the empty list in all three parser
variants. -/
theorem claim6_totality :
    (∀ s : String, scanMarkers s = [] → parseFilesRobust s = [])
    ∧ parseFilesRobust "no markers at all here" = []
    ∧ robustParse "no markers at all here" = []
    ∧ fpParse "no markers at all here" = [] := by
  refine ⟨?_, by decide, by decide, by decide⟩
  intro s h
  rw [parseFilesRobust, h]
  rfl

/-- Witness for C6 at a concrete marker-free input. -/
theorem claim6_witness : parseFilesRobust "hello" = [] :=
  claim6_totality.1 "hello" (by decide)

/-- C7: the parse operations are pure functions of the input text —
identical input yields identical complete output (all three parser
variants are deterministic Lean functions with no state or effects). -/
theorem claim7_determinism : ∀ s t : String, s = t →
    parseFilesRobust s = parseFilesRobust t
    ∧ robustParse s = robustParse t
    ∧ fpParse s = fpParse t := by
  intro s t h
  subst h
  exact ⟨rfl, rfl, rfl⟩

/-- Witness for C7 at a concrete input. -/
theorem claim7_witness :
    parseFilesRobust scAInput = parseFilesRobust scAInput
    ∧ robustParse scAInput = robustParse scAInput
    ∧ fpParse scAInput = fpParse scAInput :=
  claim7_determinism scAInput scAInput rfl

/-- A string of the shape `o ++ mid ++ c` with no line terminator in
`mid` is matched by the anchored wrap pattern. -/
theorem wrappedIn_of_shape (o cl : Char) (mid : List Char)
    (h : ∀ ch ∈ mid, ch ≠ '\n' ∧ ch ≠ '\r') :
    wrappedIn o cl (o :: (mid ++ [cl])) = true := by
  have h1 : (mid ++ [cl]).getLast? = some cl := List.getLast?_concat _
  have h2 : (mid ++ [cl]).dropLast = mid := List.dropLast_concat
  simp [wrappedIn, h1, h2]
  intro ch hch
  have := h ch hch
  tauto

/-- C5, counterexample to the claim as stated: content that is entirely
wrapped in `[...]` but spans two lines is NOT rejected by the classifier
(the pattern's dot does not cross line terminators), although the pair is
otherwise unremarkable (safe name, length at least 10). -/
theorem claim5_counterexample :
    jsTrim "[line one\nline two]" = "[line one\nline two]"
    ∧ "[line one\nline two]".data.head? = some '['
    ∧ "[line one\nline two]".data.getLast? = some ']'
    ∧ 10 ≤ "[line one\nline two]".data.length
    ∧ isPlaceholderFile "notes.txt" "[line one\nline two]" = false
    ∧ isDangerousPath "notes.txt" = false := by
  decide

/-- C5 (amended): the classifier rejects every pair whose trimmed content
is wrapped in `[...]` or `<...>` delimiters with no line terminator
strictly inside, or starts with a case-insensitive TODO:/FIXME: marker,
or contains the word "placeholder" (case-insensitively), or has trimmed
length below 10; and rejects every name containing `..`, containing a
null byte, starting with a reserved system prefix, or longer than 255
characters.  Both predicates are pure Lean functions. -/
theorem claim5_classifier :
    (∀ (filename content : String),
      ((∃ mid, jsTrimList content.data = '[' :: (mid ++ [']'])
          ∧ ∀ ch ∈ mid, ch ≠ '\n' ∧ ch ≠ '\r')
       ∨ (∃ mid, jsTrimList content.data = '<' :: (mid ++ ['>'])
          ∧ ∀ ch ∈ mid, ch ≠ '\n' ∧ ch ≠ '\r')
       ∨ ((jsTrimList content.data).map Char.toLower).take 5 = "todo:".data
       ∨ ((jsTrimList content.data).map Char.toLower).take 6 = "fixme:".data
       ∨ containsSeq "placeholder".data ((jsTrimList content.data).map Char.toLower) = true
       ∨ (jsTrimList content.data).length < 10)
      → isPlaceholderFile filename content = true)
    ∧ (∀ filename : String,
      (containsSeq "..".data filename.data = true
       ∨ '\x00' ∈ filename.data
       ∨ "/etc/".data.isPrefixOf filename.data = true
       ∨ "/proc/".data.isPrefixOf filename.data = true
       ∨ "/sys/".data.isPrefixOf filename.data = true
       ∨ "/dev/".data.isPrefixOf filename.data = true
       ∨ "/root/".data.isPrefixOf filename.data = true
       ∨ "/boot/".data.isPrefixOf filename.data = true
       ∨ filename.data.length > 255)
      → isDangerousPath filename = true) := by
  constructor
  · intro fn content h
    rcases h with ⟨mid, hmid, hchars⟩ | ⟨mid, hmid, hchars⟩ | h | h | h | h
    · have hw : wrappedIn '[' ']' (jsTrimList content.data) = true := by
        rw [hmid]; exact wrappedIn_of_shape _ _ mid hchars
      simp [isPlaceholderFile, hw]
    · have hw : wrappedIn '<' '>' (jsTrimList content.data) = true := by
        rw [hmid]; exact wrappedIn_of_shape _ _ mid hchars
      simp [isPlaceholderFile, hw]
    · simp [isPlaceholderFile, h]
    · simp [isPlaceholderFile, h]
    · simp [isPlaceholderFile, h]
    · simp [isPlaceholderFile, h]
  · intro fn h
    rcases h with h | h | h | h | h | h | h | h | h
    · simp [isDangerousPath, h]
    · simp [isDangerousPath, h]
    · simp [isDangerousPath, h]
    · simp [isDangerousPath, h]
    · simp [isDangerousPath, h]
    · simp [isDangerousPath, h]
    · simp [isDangerousPath, h]
    · simp [isDangerousPath, h]
    · have h' : 255 < fn.length := h
      simp [isDangerousPath, h']

/-- Witness for C5: a single-line bracketed placeholder is rejected, and
a path under `/etc/` is rejected. -/
theorem claim5_witness :
    isPlaceholderFile "w.js" "[all one line]" = true
    ∧ isDangerousPath "/etc/shadow" = true :=
  ⟨claim5_classifier.1 "w.js" "[all one line]"
      (Or.inl ⟨"all one line".data, by decide, by decide⟩),
   claim5_classifier.2 "/etc/shadow" (Or.inr (Or.inr (Or.inl (by decide))))⟩

/-- Lines that start with neither tag never change the line parser's
state, so the whole fold stays at the initial state. -/
theorem fpFold_const : ∀ ls : List String,
    (∀ l ∈ ls, startTag.isPrefixOf l.data = false ∧ stopTag.isPrefixOf l.data = false) →
    ls.foldl fpStep fpInit = fpInit := by
  intro ls
  induction ls with
  | nil => intro _; rfl
  | cons l ls ih =>
    intro h
    rw [List.foldl_cons]
    have hstep : fpStep fpInit l = fpInit := by
      have h1 := (h l (List.mem_cons_self _ _)).1
      have h2 := (h l (List.mem_cons_self _ _)).2
      simp [fpStep, h1, h2, fpInit]
    rw [hstep]
    exact ih (fun x hx => h x (List.mem_cons_of_mem _ hx))

/-- C9, counterexample to the claim as stated: in the regex-based parser
a start tag appearing mid-line (here at offset 6, after `prose `) IS
recognized and produces a Resolved File, although no line of the input
starts with the start tag. -/
theorem claim9_counterexample :
    robustParse "prose === FILENAME: x ===\nhello world!!\n=== END: x ===" = [("x", "hello world!!")]
    ∧ startTag.isPrefixOf "prose === FILENAME: x ===\nhello world!!\n=== END: x ===".data = false
    ∧ findSub startTag "prose === FILENAME: x ===\nhello world!!\n=== END: x ===".data = some 6
    ∧ "prose === FILENAME: x ===\nhello world!!\n=== END: x ===".data.take 6 = "prose ".data := by
  decide

/-- C9 (amended): line-anchored marker recognition holds only in the
line-based parser of `src/file-processor.js` — there, tags appearing
mid-line have no effect, and an input whose lines never start with a tag
yields no files.  In the backreference-regex parser of
`src/robust-file-parser.js` only the end tag is line-anchored (it must
be immediately preceded by a newline), so a mid-line end tag closes
nothing there, while a mid-line start tag is recognized; in the
marker-scanner parser of `tests/test-robust-parser.js` neither tag is
line-anchored — a mid-line end tag does close its block, and a mid-line
start tag does open one. -/
theorem claim9_line_anchored :
    (∀ ls : List String,
      (∀ l ∈ ls, startTag.isPrefixOf l.data = false ∧ stopTag.isPrefixOf l.data = false) →
      fpParseLines ls = [])
    ∧ robustParse "=== FILENAME: x ===\ncontent junk === END: x ===" = []
    ∧ parseFilesRobust "=== FILENAME: x ===\ncontent junk === END: x ==="
        = [("x", "content junk")]
    ∧ parseFilesRobust "prose === FILENAME: x ===\nhello world!!\n=== END: x ==="
        = [("x", "hello world!!")] := by
  refine ⟨?_, by decide, by decide, by decide⟩
  intro ls h
  rw [fpParseLines, fpFold_const ls h]
  rfl

/-- Witness for C9: lines containing tags only mid-line produce no files
in the line parser. -/
theorem claim9_witness :
    fpParseLines ["see === FILENAME: a.js === here", "and === END: a.js === there"] = [] :=
  claim9_line_anchored.1 ["see === FILENAME: a.js === here", "and === END: a.js === there"]
    (by decide)

/-- C10: in the line parser of `src/file-processor.js`, a
`=== FILENAME: ` line encountered while a previous block is open first
emits the previous block with the content accumulated so far and then
opens the new block (implicit close, not nesting); concretely, a nested
input yields both blocks rather than only the outermost. -/
theorem claim10_implicit_close :
    (∀ (st : FPState) (line f : String),
      st.inFile = true → st.currentFile = some f → f ≠ "" →
      startTag.isPrefixOf line.data = true →
      fpStep st line = { files := st.files ++ [(f, joinNL st.content)],
                         currentFile := some (jsTrim (replaceFirst ⟨startTag⟩ "" line)),
                         content := [], inFile := true })
    ∧ fpParse "=== FILENAME: outer.js ===\nA\n=== FILENAME: inner.js ===\nB\n=== END: inner.js ===\nC\n=== END: outer.js ==="
        = [("outer.js ===", "A"), ("inner.js ===", "B")] := by
  refine ⟨?_, by decide⟩
  intro st line f hin hcf hf hpre
  have ht : fpTruthy (some f) = true := by simp [fpTruthy, hf]
  simp [fpStep, hpre, hcf, hin, ht]

/-- Witness for C10: a concrete open block is emitted when a new
`=== FILENAME: ` line arrives. -/
theorem claim10_witness :
    fpStep ⟨[], some "a.js", ["x"], true⟩ "=== FILENAME: b.js ==="
      = { files := [] ++ [("a.js", joinNL ["x"])],
          currentFile := some (jsTrim (replaceFirst ⟨startTag⟩ "" "=== FILENAME: b.js ===")),
          content := [], inFile := true } :=
  claim10_implicit_close.1 ⟨[], some "a.js", ["x"], true⟩ "=== FILENAME: b.js ===" "a.js"
    rfl rfl (by decide) (by decide)

/-- A list is a Boolean prefix of itself followed by anything. -/
theorem isPrefixOf_append_self : ∀ (l t : List Char), l.isPrefixOf (l ++ t) = true := by
  intro l t
  induction l with
  | nil => simp
  | cons c l ih => simp [List.isPrefixOf_cons₂, List.cons_append, ih]

/-- A list is a Boolean prefix of itself. -/
theorem isPrefixOf_refl (l : List Char) : l.isPrefixOf l = true := by
  have := isPrefixOf_append_self l []
  rwa [List.append_nil] at this

/-- A Boolean prefix decomposes the larger list as an append. -/
theorem isPrefixOf_ex : ∀ (p l : List Char), p.isPrefixOf l = true → ∃ t, l = p ++ t := by
  intro p
  induction p with
  | nil => intro l _; exact ⟨l, rfl⟩
  | cons x p ih =>
    intro l h
    cases l with
    | nil => simp at h
    | cons y l' =>
      simp only [List.isPrefixOf_cons₂, Bool.and_eq_true, beq_iff_eq] at h
      obtain ⟨he, hp⟩ := h
      obtain ⟨t, ht⟩ := ih l' hp
      exact ⟨t, by rw [List.cons_append, ← ht, he]⟩

/-- A Boolean prefix that fits inside the left part of an append is a
prefix of that left part. -/
theorem isPrefixOf_of_append_le : ∀ (p a b : List Char),
    p.isPrefixOf (a ++ b) = true → p.length ≤ a.length → p.isPrefixOf a = true := by
  intro p
  induction p with
  | nil => intro a b _ _; simp
  | cons x p ih =>
    intro a b h hlen
    cases a with
    | nil => simp at hlen
    | cons y a' =>
      simp only [List.cons_append, List.isPrefixOf_cons₂, Bool.and_eq_true] at h ⊢
      exact ⟨h.1, ih a' b h.2 (by simpa using hlen)⟩


/-- A pattern starting with a newline cannot occur in a newline-free list. -/
theorem findSub_none : ∀ (l q : List Char), '\n' ∉ l → findSub ('\n' :: q) l = none := by
  intro l
  induction l with
  | nil => intro q _; rfl
  | cons c t ih =>
    intro q h
    have hc : ('\n' == c) = false := by
      have : c ≠ '\n' := fun he => h (he ▸ List.mem_cons_self _ _)
      simp [this.symm]
    have hpre : ('\n' :: q).isPrefixOf (c :: t) = false := by
      simp [List.isPrefixOf_cons₂, hc]
    simp [findSub, hpre, ih q (fun hm => h (List.mem_cons_of_mem _ hm))]

/-- Taking within the left part of an append. -/
theorem take_append_le (m : Nat) (p t : List Char) (h : m ≤ p.length) :
    (p ++ t).take m = p.take m := by
  rw [List.take_append_eq_append_take]
  have : m - p.length = 0 := by omega
  rw [this, List.take_zero, List.append_nil]

/-- If the pattern `'\n' :: q` has no occurrence inside `c` and `q` is
newline-free, then the first occurrence of the pattern in `c ++ pattern`
is exactly at the boundary `c.length`. -/
theorem findSub_boundary : ∀ (c q : List Char),
    '\n' ∉ q →
    (∀ i, ('\n' :: q).isPrefixOf (c.drop i) = false) →
    findSub ('\n' :: q) (c ++ ('\n' :: q)) = some c.length := by
  intro c
  induction c with
  | nil =>
    intro q _ _
    simp only [List.nil_append, List.length_nil]
    rw [findSub, if_pos (isPrefixOf_refl _)]
  | cons x c' ih =>
    intro q hq hc
    have hfalse : ('\n' :: q).isPrefixOf ((x :: c') ++ ('\n' :: q)) = false := by
      cases hb : ('\n' :: q).isPrefixOf ((x :: c') ++ ('\n' :: q)) with
      | false => rfl
      | true =>
        exfalso
        obtain ⟨t, ht⟩ := isPrefixOf_ex _ _ hb
        by_cases hm : ('\n' :: q).length ≤ (x :: c').length
        · -- the pattern would be a prefix of x :: c' itself
          have h1 : ((x :: c') ++ ('\n' :: q)).take ('\n' :: q).length
              = (x :: c').take ('\n' :: q).length := take_append_le _ _ _ hm
          have h2 : (('\n' :: q) ++ t).take ('\n' :: q).length = '\n' :: q := by
            rw [take_append_le _ _ _ (Nat.le_refl _), List.take_length]
          rw [ht, h2] at h1
          have h3 : ('\n' :: q).isPrefixOf (x :: c') = true := by
            have h4 : x :: c' = ('\n' :: q) ++ (x :: c').drop ('\n' :: q).length := by
              conv_lhs => rw [← List.take_append_drop ('\n' :: q).length (x :: c')]
              rw [← h1]
            rw [h4]
            exact isPrefixOf_append_self _ _
          have := hc 0
          rw [List.drop_zero] at this
          rw [this] at h3
          exact absurd h3 (by simp)
        · -- the pattern would contain an interior newline
          push_neg at hm
          set m := (x :: c').length with hmdef
          have e1 : ((x :: c') ++ ('\n' :: q)).get? m = some '\n' := by
            rw [List.get?_append_right (Nat.le_refl _)]
            simp
          have e2 : (('\n' :: q) ++ t).get? m = ('\n' :: q).get? m :=
            List.get?_append hm
          rw [ht, e2] at e1
          have hm1 : 1 ≤ m := by simp [hmdef]
          obtain ⟨k, hk⟩ : ∃ k, m = k + 1 := ⟨m - 1, by omega⟩
          rw [hk] at e1
          simp only [List.get?_cons_succ] at e1
          exact hq (List.get?_mem e1)
    rw [List.cons_append, findSub,
      if_neg (by intro hcon; rw [← List.cons_append, hfalse] at hcon; simp at hcon)]
    rw [ih q hq (fun i => by have h := hc (i + 1); rwa [List.drop_succ_cons] at h)]
    simp

/-- The literal `" ==="` cannot match while part of the name is still
unconsumed: either it would lie inside the name (excluded by hypothesis)
or it would straddle the name/closing boundary, which the shape of the
literal makes impossible. -/
theorem sep4_not_prefix_mid : ∀ (rem r : List Char),
    rem ≠ [] →
    (∀ i, (' ' :: '=' :: '=' :: '=' :: []).isPrefixOf (rem.drop i) = false) →
    (' ' :: '=' :: '=' :: '=' :: []).isPrefixOf
      (rem ++ ((' ' :: '=' :: '=' :: '=' :: []) ++ r)) = false := by
  intro rem r hne hsep
  have h1 : (('=' : Char) == ' ') = false := by decide
  rcases rem with _ | ⟨a, _ | ⟨b, _ | ⟨e, _ | ⟨f, tl⟩⟩⟩⟩
  · exact absurd rfl hne
  · simp [List.isPrefixOf_cons₂, h1]
  · simp [List.isPrefixOf_cons₂, h1]
  · simp [List.isPrefixOf_cons₂, h1]
  · cases hb : (' ' :: '=' :: '=' :: '=' :: []).isPrefixOf
        ((a :: b :: e :: f :: tl) ++ ((' ' :: '=' :: '=' :: '=' :: []) ++ r)) with
    | false => rfl
    | true =>
      exfalso
      have hble := isPrefixOf_of_append_le _ _ _ hb (by simp)
      have h0 := hsep 0
      rw [List.drop_zero] at h0
      rw [hble] at h0
      simp at h0

/-- Walking the name: the first name/closing split produced by the
candidate enumeration is the full name, when the closing literal cannot
occur early. -/
theorem nameCandsGo_head : ∀ (rem acc r : List Char),
    '\n' ∉ rem → '\r' ∉ rem →
    (∀ i, (' ' :: '=' :: '=' :: '=' :: []).isPrefixOf (rem.drop i) = false) →
    ∃ junk, nameCandsGo acc (rem ++ ((' ' :: '=' :: '=' :: '=' :: []) ++ r))
      = (acc ++ rem, r) :: junk := by
  intro rem
  induction rem with
  | nil =>
    intro acc r _ _ _
    refine ⟨nameCandsGo (acc ++ [' ']) ('=' :: '=' :: '=' :: r), ?_⟩
    have htest : (' ' :: '=' :: '=' :: '=' :: ([] : List Char)).isPrefixOf
        (' ' :: '=' :: '=' :: '=' :: r) = true := by
      exact isPrefixOf_append_self (' ' :: '=' :: '=' :: '=' :: []) r
    simp [nameCandsGo, htest]
  | cons d rem' ih =>
    intro acc r hnl hcr hsep
    have hd : d ≠ '\n' := fun he => hnl (he ▸ List.mem_cons_self _ _)
    have hdr : d ≠ '\r' := fun he => hcr (he ▸ List.mem_cons_self _ _)
    have hfalse' : (' ' :: '=' :: '=' :: '=' :: []).isPrefixOf
        (d :: (rem' ++ ((' ' :: '=' :: '=' :: '=' :: []) ++ r))) = false :=
      sep4_not_prefix_mid (d :: rem') r (by simp) hsep
    obtain ⟨junk, hjunk⟩ := ih (acc ++ [d]) r
      (fun hm => hnl (List.mem_cons_of_mem _ hm))
      (fun hm => hcr (List.mem_cons_of_mem _ hm))
      (fun i => by have h := hsep (i + 1); rwa [List.drop_succ_cons] at h)
    refine ⟨junk, ?_⟩
    rw [List.cons_append]
    simp only [nameCandsGo]
    rw [hfalse', hjunk]
    simp [List.append_assoc, hd, hdr]

/-- The first candidate of the name enumeration on `name ++ " ===" ++ r`
is `(name, r)`. -/
theorem nameCands_head : ∀ (n r : List Char),
    n ≠ [] → '\n' ∉ n → '\r' ∉ n →
    (∀ i, (' ' :: '=' :: '=' :: '=' :: []).isPrefixOf (n.drop i) = false) →
    ∃ junk, nameCands (n ++ ((' ' :: '=' :: '=' :: '=' :: []) ++ r)) = (n, r) :: junk := by
  intro n r hne hnl hcr hsep
  cases n with
  | nil => exact absurd rfl hne
  | cons c n' =>
    have hc : ¬(c = '\n' ∨ c = '\r') := by
      rintro (he | he)
      · exact hnl (he ▸ List.mem_cons_self _ _)
      · exact hcr (he ▸ List.mem_cons_self _ _)
    obtain ⟨junk, hj⟩ := nameCandsGo_head n' [c] r
      (fun hm => hnl (List.mem_cons_of_mem _ hm))
      (fun hm => hcr (List.mem_cons_of_mem _ hm))
      (fun i => by have h := hsep (i + 1); rwa [List.drop_succ_cons] at h)
    refine ⟨junk, ?_⟩
    rw [List.cons_append]
    simp only [nameCands]
    rw [if_neg hc, hj]
    simp

/-- The closing pattern written out as an explicit character list. -/
theorem endPatOf_eq (raw : List Char) : endPatOf raw
    = '\n' :: '=' :: '=' :: '=' :: ' ' :: 'E' :: 'N' :: 'D' :: ':' :: ' '
      :: (raw ++ (' ' :: '=' :: '=' :: '=' :: [])) := by
  have h1 : "=== END: ".data = '=' :: '=' :: '=' :: ' ' :: 'E' :: 'N' :: 'D' :: ':' :: ' ' :: [] := by
    decide
  have h2 : " ===".data = ' ' :: '=' :: '=' :: '=' :: [] := by decide
  simp [endPatOf, h1, h2]

/-- The tail of the closing pattern contains no newline when the raw name
contains none. -/
theorem endPat_tail_no_nl (n : List Char) (hnl : '\n' ∉ n) :
    '\n' ∉ ('=' :: '=' :: '=' :: ' ' :: 'E' :: 'N' :: 'D' :: ':' :: ' '
      :: (n ++ (' ' :: '=' :: '=' :: '=' :: []))) := by
  intro hm
  have hm' : '\n' ∈ (['=', '=', '=', ' ', 'E', 'N', 'D', ':', ' '] : List Char)
      ++ (n ++ ([' ', '=', '=', '='] : List Char)) := hm
  rcases List.mem_append.mp hm' with h | h
  · exact absurd h (by decide)
  · rcases List.mem_append.mp h with h2 | h2
    · exact hnl h2
    · exact absurd h2 (by decide)

/-- `afterName` on the wrapped input with empty content. -/
theorem afterName_wrap_nil (n : List Char) (hnl : '\n' ∉ n) :
    afterName n ('\n' :: endPatOf n) = some ([], []) := by
  have hpe := endPatOf_eq n
  have hw : wsRunLen ('\n' :: endPatOf n) = 2 := by
    rw [hpe]
    simp [wsRunLen, List.takeWhile_cons, show wsChar '\n' = true from by decide,
      show wsChar '=' = false from by decide]
  have hfs1 : findSub
      ('\n' :: '=' :: '=' :: '=' :: ' ' :: 'E' :: 'N' :: 'D' :: ':' :: ' ' :: (n ++ [' ', '=', '=', '=']))
      ('=' :: '=' :: '=' :: ' ' :: 'E' :: 'N' :: 'D' :: ':' :: ' ' :: (n ++ [' ', '=', '=', '='])) = none :=
    findSub_none _ _ (endPat_tail_no_nl n hnl)
  have hfs0 : findSub
      ('\n' :: '=' :: '=' :: '=' :: ' ' :: 'E' :: 'N' :: 'D' :: ':' :: ' ' :: (n ++ [' ', '=', '=', '=']))
      ('\n' :: '=' :: '=' :: '=' :: ' ' :: 'E' :: 'N' :: 'D' :: ':' :: ' ' :: (n ++ [' ', '=', '=', '='])) = some 0 := by
    rw [findSub, if_pos (isPrefixOf_refl _)]
  simp only [afterName, hw]
  have hrange : (List.range (2 + 1)).reverse = [2, 1, 0] := by decide
  rw [hrange, hpe]
  simp [List.findSome?, hfs1, hfs0]

/-- `afterName` on the wrapped input with non-empty trimmed content. -/
theorem afterName_wrap_cons (n : List Char) (c0 : Char) (c' : List Char)
    (hnl : '\n' ∉ n) (hws : wsChar c0 = false)
    (hocc : ∀ i, (endPatOf n).isPrefixOf ((c0 :: c').drop i) = false) :
    afterName n ('\n' :: ((c0 :: c') ++ endPatOf n)) = some (c0 :: c', []) := by
  have hc0 : c0 ≠ '\n' := by
    intro he
    rw [he] at hws
    exact absurd hws (by decide)
  have hw : wsRunLen ('\n' :: ((c0 :: c') ++ endPatOf n)) = 1 := by
    simp [wsRunLen, List.takeWhile_cons, show wsChar '\n' = true from by decide, hws]
  have hb : findSub (endPatOf n) (c0 :: (c' ++ endPatOf n)) = some (c0 :: c').length := by
    have h : findSub (endPatOf n) ((c0 :: c') ++ endPatOf n) = some (c0 :: c').length := by
      rw [endPatOf_eq]
      exact findSub_boundary (c0 :: c') _ (endPat_tail_no_nl n hnl)
        (fun i => by have h := hocc i; rwa [endPatOf_eq] at h)
    exact h
  have htake : List.take (c0 :: c').length (c0 :: (c' ++ endPatOf n)) = c0 :: c' :=
    List.take_left (c0 :: c') (endPatOf n)
  have hdropall : List.drop ((c0 :: c').length + (endPatOf n).length) (c0 :: (c' ++ endPatOf n)) = [] := by
    have h : ((c0 :: c') ++ endPatOf n).drop (((c0 :: c') ++ endPatOf n).length) = [] :=
      List.drop_length _
    rwa [List.length_append] at h
  simp only [afterName, hw]
  have hrange : (List.range (1 + 1)).reverse = [1, 0] := by decide
  rw [hrange]
  simp [List.findSome?, hb, hc0, htake, hdropall]
  omega

/-- Re-wrapping a resolved name and content in fresh markers, as in the
round-trip property. -/
def wrapBlock (n c : String) : String :=
  "=== FILENAME: " ++ n ++ " ===\n" ++ c ++ "\n=== END: " ++ n ++ " ==="

/-- Decomposition of the wrapped text into scanner-relevant segments. -/
theorem wrapBlock_data (n c : String) :
    (wrapBlock n c).data
      = startTag ++ (n.data ++ ((' ' :: '=' :: '=' :: '=' :: [])
          ++ ('\n' :: (c.data ++ endPatOf n.data)))) := by
  have h1 : (" ===\n" : String).data = (' ' :: '=' :: '=' :: '=' :: []) ++ ['\n'] := by decide
  have h2 : ("\n=== END: " : String).data = '\n' :: "=== END: ".data := by decide
  simp [wrapBlock, String.data_append, h1, h2, endPatOf, startTag, List.append_assoc]

/-- A trim-fixed list is empty or starts with a non-whitespace character. -/
theorem trimFixed_head : ∀ l : List Char, jsTrimList l = l →
    l = [] ∨ ∃ c0 c', l = c0 :: c' ∧ wsChar c0 = false := by
  intro l h
  cases l with
  | nil => exact Or.inl rfl
  | cons c0 c' =>
    refine Or.inr ⟨c0, c', rfl, ?_⟩
    cases hws : wsChar c0 with
    | false => rfl
    | true =>
      exfalso
      have hdw : (c0 :: c').dropWhile wsChar = c'.dropWhile wsChar := by
        simp [List.dropWhile_cons, hws]
      have hlen : (jsTrimList (c0 :: c')).length ≤ c'.length := by
        rw [jsTrimList, hdw]
        calc ((c'.dropWhile wsChar).reverse.dropWhile wsChar).reverse.length
            = ((c'.dropWhile wsChar).reverse.dropWhile wsChar).length :=
              List.length_reverse _
          _ ≤ (c'.dropWhile wsChar).reverse.length :=
              (List.dropWhile_sublist _).length_le
          _ = (c'.dropWhile wsChar).length := List.length_reverse _
          _ ≤ c'.length := (List.dropWhile_sublist _).length_le
      rw [h] at hlen
      simp at hlen

/-- Bounded no-occurrence hypotheses extend to all indices. -/
theorem prefixFalse_full (p l : List Char) (hp : p ≠ [])
    (h : ∀ i, i < l.length → p.isPrefixOf (l.drop i) = false) :
    ∀ i, p.isPrefixOf (l.drop i) = false := by
  intro i
  by_cases hi : i < l.length
  · exact h i hi
  · have hd : l.drop i = [] := List.drop_eq_nil_of_le (by omega)
    rw [hd]
    cases p with
    | nil => exact absurd rfl hp
    | cons a as => simp

/-- The backreference regex matches the whole wrapped block at position 0,
capturing exactly the name and the content. -/
theorem rTryMatch_wrap (n c : String)
    (hne : n.data ≠ []) (hnl : '\n' ∉ n.data) (hcr : '\r' ∉ n.data)
    (hsep : ∀ i, (' ' :: '=' :: '=' :: '=' :: []).isPrefixOf (n.data.drop i) = false)
    (hctrim : jsTrimList c.data = c.data)
    (hocc : ∀ i, (endPatOf n.data).isPrefixOf (c.data.drop i) = false) :
    rTryMatch (wrapBlock n c).data = some (n.data, c.data, []) := by
  rw [wrapBlock_data]
  rw [rTryMatch, if_pos (isPrefixOf_append_self _ _)]
  have hdrop : (startTag ++ (n.data ++ ((' ' :: '=' :: '=' :: '=' :: [])
      ++ ('\n' :: (c.data ++ endPatOf n.data))))).drop 14
      = n.data ++ ((' ' :: '=' :: '=' :: '=' :: []) ++ ('\n' :: (c.data ++ endPatOf n.data))) := by
    have h14 : startTag.length = 14 := rfl
    rw [← h14, List.drop_left]
  rw [hdrop]
  obtain ⟨junk, hcands⟩ :=
    nameCands_head n.data ('\n' :: (c.data ++ endPatOf n.data)) hne hnl hcr hsep
  rw [hcands]
  rcases trimFixed_head c.data hctrim with hcn | ⟨c0, c', hcc, hws⟩
  · rw [hcn]
    have ha := afterName_wrap_nil n.data hnl
    simp [List.findSome?, ha, hcn]
  · rw [hcc]
    have ha : afterName n.data ('\n' :: c0 :: (c' ++ endPatOf n.data)) = some (c0 :: c', []) :=
      afterName_wrap_cons n.data c0 c' hnl hws
        (fun i => by have h := hocc i; rwa [hcc] at h)
    simp [List.findSome?, ha]

/-- The fuel-based scan of the empty list is empty. -/
theorem robustScanAux_nil : ∀ (f pos : Nat), robustScanAux f [] pos = [] := by
  intro f pos
  cases f <;> rfl

/-- C8 (amended): re-parsing a resolved file's content wrapped in fresh
identical markers yields exactly that one Resolved File back, PROVIDED
the marker name has no surrounding whitespace (raw captured name equal to
the resolved name).  The syntactic hypotheses are exactly the facts such
a parse guarantees: the name is non-empty, trim-fixed, free of the line
terminators `\n` and `\r` (the regex dot matches neither) and contains
no closing literal `" ==="`; the content is trim-fixed and does not
contain the closing pattern `\n=== END: <name> ===`. -/
theorem claim8_roundtrip : ∀ n c : String,
    n.data ≠ [] → jsTrim n = n → '\n' ∉ n.data → '\r' ∉ n.data →
    (∀ i, i < n.data.length →
      (' ' :: '=' :: '=' :: '=' :: []).isPrefixOf (n.data.drop i) = false) →
    jsTrim c = c →
    (∀ i, i < c.data.length →
      (endPatOf n.data).isPrefixOf (c.data.drop i) = false) →
    robustParse (wrapBlock n c) = [(n, c)] := by
  intro n c hne hntrim hnl hcr hsepB hctrim hoccB
  have hntrim' : jsTrimList n.data = n.data := congrArg String.data hntrim
  have hctrim' : jsTrimList c.data = c.data := congrArg String.data hctrim
  have hsep := prefixFalse_full _ _ (by simp) hsepB
  have hocc := prefixFalse_full _ _ (by rw [endPatOf_eq]; simp) hoccB
  have hmatch := rTryMatch_wrap n c hne hnl hcr hsep hctrim' hocc
  obtain ⟨t, ht⟩ : ∃ t, (wrapBlock n c).data = '=' :: t := by
    rw [wrapBlock_data]
    exact ⟨_, rfl⟩
  have hscan : robustRanges (wrapBlock n c)
      = [{ filename := jsTrim n, content := jsTrim c, rstart := 0,
           rend := 0 + (('=' :: t).length - ([] : List Char).length) }] := by
    rw [robustRanges, ht]
    rw [ht] at hmatch
    simp only [List.length_cons, robustScanAux, hmatch, robustScanAux_nil]
  rw [robustParse, hscan, hntrim, hctrim]
  simp [robustOuter]

/-- The single-block input whose marker name carries trailing whitespace
(raw name `x `, trimmed name `x`). -/
def cex8Input : String := "=== FILENAME: x  ===\nA\n=== END: x ===\nB\n=== END: x  ==="

/-- The content that block resolves to. -/
def cex8Content : String := "A\n=== END: x ===\nB"

/-- C8, counterexample to the claim as stated: the input resolves to the
single file `x` with content `A\n=== END: x ===\nB`, but re-parsing that
content wrapped in fresh markers (now named `x` without the trailing
space) stops at the end-marker text inside the content and yields content
`A` instead. -/
theorem claim8_counterexample :
    robustParse cex8Input = [("x", cex8Content)]
    ∧ robustParse (wrapBlock "x" cex8Content) = [("x", "A")]
    ∧ ("A" : String) ≠ cex8Content := by
  decide

/-- Witness for C8 at a concrete safe name and content. -/
theorem claim8_witness :
    robustParse (wrapBlock "ok.js" "hello world") = [("ok.js", "hello world")] :=
  claim8_roundtrip "ok.js" "hello world" (by decide) (by decide) (by decide)
    (by decide) (by decide) (by decide) (by decide)

/-- A successful `findSome?` comes from some list element. -/
theorem findSome?_exists {α β : Type} (f : α → Option β) :
    ∀ (l : List α) (b : β), l.findSome? f = some b → ∃ a ∈ l, f a = some b := by
  intro l
  induction l with
  | nil => intro b h; simp [List.findSome?] at h
  | cons a l ih =>
    intro b h
    rw [List.findSome?] at h
    split at h
    · rename_i c heq
      exact ⟨a, List.mem_cons_self _ _, heq.trans h⟩
    · obtain ⟨x, hx, hfx⟩ := ih b h
      exact ⟨x, List.mem_cons_of_mem _ hx, hfx⟩

/-- Every candidate's remainder is no longer than the scanned text. -/
theorem nameCandsGo_snd_le : ∀ (rest acc : List Char) (p : List Char × List Char),
    p ∈ nameCandsGo acc rest → p.2.length ≤ rest.length := by
  intro rest
  induction rest with
  | nil => intro acc p h; simp [nameCandsGo] at h
  | cons d rest' ih =>
    intro acc p h
    simp only [nameCandsGo, List.mem_append] at h
    rcases h with h | h
    · split at h
      · simp only [List.mem_singleton] at h
        subst h
        simp only [List.drop_succ_cons, List.length_cons, List.length_drop]
        omega
      · simp at h
    · split at h
      · simp at h
      · have := ih (acc ++ [d]) p h
        simp only [List.length_cons]
        omega

/-- Every candidate's remainder is no longer than the scanned text. -/
theorem nameCands_snd_le : ∀ (l : List Char) (p : List Char × List Char),
    p ∈ nameCands l → p.2.length ≤ l.length := by
  intro l p h
  cases l with
  | nil => simp [nameCands] at h
  | cons c rest =>
    simp only [nameCands] at h
    split at h
    · simp at h
    · have := nameCandsGo_snd_le rest [c] p h
      simp only [List.length_cons]
      omega

/-- A successful content match leaves a remainder no longer than its
input. -/
theorem afterName_rest_le (raw r0 : List Char) (content rest : List Char)
    (h : afterName raw r0 = some (content, rest)) : rest.length ≤ r0.length := by
  rw [afterName] at h
  obtain ⟨k, -, hk⟩ := findSome?_exists _ _ _ h
  split at hk
  · split at hk
    · simp only [Option.map_eq_some'] at hk
      obtain ⟨idx, hf, hpair⟩ := hk
      injection hpair with h1 h2
      subst h2
      simp only [List.length_drop]
      omega
    · simp at hk
  · simp at hk

/-- A whole-regex match strictly shortens the input. -/
theorem rTryMatch_len {l : List Char} {raw content rest : List Char}
    (h : rTryMatch l = some (raw, content, rest)) : rest.length < l.length := by
  rw [rTryMatch] at h
  split at h
  · rename_i hpre
    obtain ⟨p, hp, hfp⟩ := findSome?_exists _ _ _ h
    cases ha : afterName p.1 p.2 with
    | none => rw [ha] at hfp; simp at hfp
    | some q =>
      rw [ha] at hfp
      simp only [Option.map_some', Option.some.injEq, Prod.mk.injEq] at hfp
      have hrest : rest = q.2 := hfp.2.2.symm
      have h1 : q.2.length ≤ p.2.length := by
        cases q with
        | mk q1 q2 => exact afterName_rest_le p.1 p.2 q1 q2 ha
      have h2 : p.2.length ≤ (l.drop 14).length := nameCands_snd_le _ p hp
      have h3 : l ≠ [] := by
        intro he
        rw [he] at hpre
        simp [startTag] at hpre
      have h4 : 1 ≤ l.length := by
        cases l with
        | nil => exact absurd rfl h3
        | cons _ _ => simp
      rw [hrest]
      simp only [List.length_drop] at h2
      omega
  · exact absurd h (by simp)

/-- Scan soundness for the regex parser: ranges found from `pos` start at
or after `pos`, have positive width, and successive matches do not
overlap. -/
theorem robustScanAux_bounds : ∀ (fuel : Nat) (l : List Char) (pos : Nat),
    (∀ r ∈ robustScanAux fuel l pos, pos ≤ r.rstart ∧ r.rstart < r.rend)
    ∧ (robustScanAux fuel l pos).Pairwise (fun a b => a.rend ≤ b.rstart) := by
  intro fuel
  induction fuel with
  | zero => intro l pos; simp [robustScanAux]
  | succ f ih =>
    intro l pos
    cases l with
    | nil => simp [robustScanAux]
    | cons c t =>
      cases htm : rTryMatch (c :: t) with
      | none =>
        have heq : robustScanAux (f + 1) (c :: t) pos = robustScanAux f t (pos + 1) := by
          simp [robustScanAux, htm]
        rw [heq]
        refine ⟨fun r hr => ?_, (ih t (pos + 1)).2⟩
        have := (ih t (pos + 1)).1 r hr
        omega
      | some trip =>
        obtain ⟨raw, content, rest⟩ := trip
        have hlt := rTryMatch_len htm
        have heq : robustScanAux (f + 1) (c :: t) pos =
            { filename := jsTrim ⟨raw⟩, content := jsTrim ⟨content⟩, rstart := pos,
              rend := pos + ((c :: t).length - rest.length) }
              :: robustScanAux f rest (pos + ((c :: t).length - rest.length)) := by
          simp [robustScanAux, htm]
        rw [heq]
        constructor
        · intro r hr
          rcases List.mem_cons.mp hr with h | h
          · subst h
            refine ⟨Nat.le_refl _, ?_⟩
            simp only
            omega
          · have := (ih rest (pos + ((c :: t).length - rest.length))).1 r h
            omega
        · rw [List.pairwise_cons]
          refine ⟨fun b hb => ?_, (ih rest _).2⟩
          have := (ih rest (pos + ((c :: t).length - rest.length))).1 b hb
          simp only
          omega

/-- The containment filter of `src/robust-file-parser.js` never removes
anything: global regex matches are sequential and non-overlapping, so no
range can strictly contain another. -/
theorem robustOuter_id (s : String) : robustOuter (robustRanges s) = robustRanges s := by
  have hb := robustScanAux_bounds s.data.length s.data 0
  have hsym : (robustRanges s).Pairwise
      (fun a b => a.rend ≤ b.rstart ∨ b.rend ≤ a.rstart) :=
    hb.2.imp (fun h => Or.inl h)
  have hforall := hsym.forall (fun a b h => h.symm)
  rw [robustOuter]
  apply List.filter_eq_self.mpr
  intro r hr
  rw [Bool.not_eq_eq_eq_not, Bool.not_true, List.any_eq_false]
  intro o ho
  by_cases hne : o = r
  · subst hne
    simp
  · have hrel := hforall ho hr hne
    have hrb := (hb.1 r hr).2
    have hob := (hb.1 o ho).2
    rcases hrel with hle | hle
    · have : decide (o.rend > r.rend) = false := by
        simp only [decide_eq_false_iff_not]
        omega
      simp [this]
    · have : decide (o.rstart < r.rstart) = false := by
        simp only [decide_eq_false_iff_not]
        omega
      simp [this]

/-- A `filterMap` that never drops keeps the length. -/
theorem filterMap_length_of_isSome {α β : Type} (f : α → Option β) :
    ∀ l : List α, (∀ x ∈ l, (f x).isSome) → (l.filterMap f).length = l.length := by
  intro l
  induction l with
  | nil => intro _; rfl
  | cons x l ih =>
    intro h
    cases hf : f x with
    | none =>
      have := h x (List.mem_cons_self _ _)
      rw [hf] at this
      simp at this
    | some b =>
      rw [List.filterMap_cons, hf]
      simp only [List.length_cons]
      rw [ih (fun y hy => h y (List.mem_cons_of_mem _ hy))]

/-- The per-range content extraction and truthiness check of
`parseFilesRobust`, as a named function (definitionally the body of its
`filterMap`). -/
def extractOf (s : String) (r : RawRange) : Option (String × String) :=
  let content := dropLeadNL (jsTrimList (sliceStr s.data r.startPos r.endPos))
  if content = [] then none else some (r.filename, (⟨content⟩ : String))

/-- C4, counterexample to the claim as stated: one disjoint well-formed
block whose content is only whitespace resolves to exactly one
non-nested candidate range, yet the stack parser produces zero Resolved
Files — the JS truthiness check drops content that cleans to the empty
string, so N well-formed blocks do not always yield N Resolved Files. -/
theorem claim4_counterexample :
    resolveAux (scanMarkers "=== FILENAME: a ===\n\n=== END: a ===") []
      = [⟨"a", 19, 21, false⟩]
    ∧ parseFilesRobust "=== FILENAME: a ===\n\n=== END: a ===" = [] := by
  decide

/-- C4 (amended): N disjoint well-formed blocks resolve to exactly N
candidate ranges, in block order, none nested, and with markers in
textual order the ranges are ordered by the position of each block's
closing end marker.  At the Resolved-Files level: in the regex parser of
`src/robust-file-parser.js` the containment filter never fires, so the
output is exactly one Resolved File per match, in textual match order;
in the stack parser a resolved block becomes a Resolved File exactly
when its cleaned content is non-empty, so N disjoint well-formed blocks
whose contents are non-empty yield exactly N Resolved Files; Scenario A
yields the two expected files in both parsers. -/
theorem claim4_multiplicity :
    (∀ bs : List (Marker × Marker),
      (∀ p ∈ bs, p.1.kind = MKind.start ∧ p.2.kind = MKind.stop ∧ p.1.name = p.2.name) →
      resolveAux (blockFlat bs) [] = bs.map blockRange
      ∧ (MChain (blockFlat bs) →
          ((bs.map blockRange).map RawRange.endPos).Pairwise (· < ·)))
    ∧ (∀ (s : String) (bs : List (Marker × Marker)),
        resolveAux (scanMarkers s) [] = bs.map blockRange →
        parseFilesRobust s = (bs.map blockRange).filterMap (extractOf s)
        ∧ ((∀ r ∈ bs.map blockRange, (extractOf s r).isSome) →
            (parseFilesRobust s).length = bs.length))
    ∧ (∀ s : String, robustParse s = (robustRanges s).map (fun r => (r.filename, r.content)))
    ∧ parseFilesRobust scAInput = [("README.md", "# Test"), ("src/x.tsx", "import X")]
    ∧ robustParse scAInput = [("README.md", "# Test"), ("src/x.tsx", "import X")] := by
  refine ⟨?_, ?_, ?_, by decide, by decide⟩
  · intro bs hb
    induction bs with
    | nil => exact ⟨rfl, fun _ => List.Pairwise.nil⟩
    | cons p bs ih =>
      obtain ⟨hk1, hk2, hname⟩ := hb p (List.mem_cons_self _ _)
      have hb' : ∀ q ∈ bs, q.1.kind = MKind.start ∧ q.2.kind = MKind.stop ∧ q.1.name = q.2.name :=
        fun q hq => hb q (List.mem_cons_of_mem _ hq)
      have ih' := ih hb'
      constructor
      · have hflat : blockFlat (p :: bs) = p.1 :: p.2 :: blockFlat bs := by
          simp [blockFlat]
        rw [hflat, resolveAux, hk1, resolveAux, hk2]
        have hpop : popMatch p.2.name [p.1] = some (p.1, []) := by
          simp [popMatch, hname]
        rw [hpop]
        simp only [List.map_cons]
        rw [ih'.1]
        rfl
      · intro hchain
        obtain ⟨hpw, hpe⟩ := hchain
        have hsub := map_snd_sublist (p :: bs)
        have hpwsnd : ((p :: bs).map Prod.snd).Pairwise (fun a b => a.endPosition ≤ b.position) :=
          hpw.sublist hsub
        have hpesnd : ∀ m ∈ (p :: bs).map Prod.snd, m.position < m.endPosition :=
          fun m hm => hpe m (hsub.subset hm)
        have heq : (((p :: bs).map blockRange).map RawRange.endPos)
            = ((p :: bs).map Prod.snd).map Marker.position := by
          simp [blockRange]
        rw [heq, List.pairwise_map]
        refine hpwsnd.imp_of_mem ?_
        intro a b ha hb'' hle
        have := hpesnd a ha
        omega
  · intro s bs hres
    have houter : outerOnly (bs.map blockRange) = bs.map blockRange := by
      rw [outerOnly]
      apply List.filter_eq_self.mpr
      intro r hr
      obtain ⟨p, hp, hpr⟩ := List.mem_map.mp hr
      rw [← hpr]
      rfl
    have hmain : parseFilesRobust s = (bs.map blockRange).filterMap (extractOf s) := by
      simp only [parseFilesRobust]
      rw [hres, houter]
      rfl
    refine ⟨hmain, fun hne => ?_⟩
    rw [hmain, filterMap_length_of_isSome (extractOf s) (bs.map blockRange) hne,
      List.length_map]
  · intro s
    rw [robustParse, robustOuter_id]

/-- Witness for C4: two concrete disjoint blocks at the resolver level,
and Scenario A at the Resolved-Files level (two blocks, two files). -/
theorem claim4_witness :
    resolveAux (blockFlat [(⟨MKind.start, "a", 0, 10⟩, ⟨MKind.stop, "a", 20, 28⟩),
        (⟨MKind.start, "b", 30, 40⟩, ⟨MKind.stop, "b", 50, 58⟩)]) []
      = [⟨"a", 10, 20, false⟩, ⟨"b", 40, 50, false⟩]
    ∧ (([(⟨MKind.start, "a", 0, 10⟩, ⟨MKind.stop, "a", 20, 28⟩),
        (⟨MKind.start, "b", 30, 40⟩, ⟨MKind.stop, "b", 50, 58⟩)].map blockRange).map
          RawRange.endPos).Pairwise (· < ·)
    ∧ (parseFilesRobust scAInput).length
        = ([(⟨MKind.start, "README.md", 0, 27⟩, ⟨MKind.stop, "README.md", 35, 57⟩),
            (⟨MKind.start, "src/x.tsx", 59, 86⟩, ⟨MKind.stop, "src/x.tsx", 96, 118⟩)]
            : List (Marker × Marker)).length := by
  have h := (claim4_multiplicity.1
    [(⟨MKind.start, "a", 0, 10⟩, ⟨MKind.stop, "a", 20, 28⟩),
     (⟨MKind.start, "b", 30, 40⟩, ⟨MKind.stop, "b", 50, 58⟩)] (by decide))
  refine ⟨h.1, h.2 (by constructor <;> decide), ?_⟩
  exact (claim4_multiplicity.2.1 scAInput
    ([(⟨MKind.start, "README.md", 0, 27⟩, ⟨MKind.stop, "README.md", 35, 57⟩),
      (⟨MKind.start, "src/x.tsx", 59, 86⟩, ⟨MKind.stop, "src/x.tsx", 96, 118⟩)]
      : List (Marker × Marker))
    (by decide)).2 (by decide)
